import Mathlib

/-!
Shallow embedding of the HTML tokenizer of `saba_core/src/renderer/html/token.rs`
(repository d6ms/rust-simple-browser).

Rust `String`s are modelled as their sequence of Unicode scalar values
(`List Char`), matching the tokenizer's own view of its input
(`html.chars().collect::<Vec<char>>()`).  Fallible operations (slice indexing,
`assert!`, `panic!`) are modelled explicitly: out-of-bounds indexing and the
contract-violation branches of the token/attribute helpers are separate result
constructors instead of Lean partial functions.  The `Iterator::next` loop is
modelled with an explicit fuel parameter; `noFuel` marks fuel exhaustion and is
never identified with any behaviour of the code.
-/

namespace Tok

/-- Modelled from the spec: the external Attribute accumulator
(`saba_core/src/renderer/html/attribute.rs` is not among the provided sources;
spec §6 describes it as a name buffer and a value buffer with a
"create empty" operation and an "append character to name-or-value"
operation). -/
structure Attribute where
  name : List Char
  value : List Char
deriving DecidableEq, Repr

/-- Modelled from the spec: `NewAttribute()` returns an empty name/value pair. -/
def Attribute.new : Attribute := ⟨[], []⟩

/-- Modelled from the spec: `AppendChar(attr, c, isName)` appends `c` to the
name buffer if `isName`, else to the value buffer. -/
def Attribute.add_char (a : Attribute) (c : Char) (is_name : Bool) : Attribute :=
  if is_name then { a with name := a.name ++ [c] } else { a with value := a.value ++ [c] }

/-- `HtmlToken` from token.rs. -/
inductive HtmlToken where
  | StartTag (tag : List Char) (self_closing : Bool) (attributes : List Attribute)
  | EndTag (tag : List Char)
  | Char (c : Char)
  | Eof
deriving DecidableEq, Repr

/-- `State` from token.rs. -/
inductive State where
  | Data
  | TagOpen
  | EndTagOpen
  | TagName
  | BeforeAttributeName
  | AttributeName
  | AfterAttributeName
  | BeforeAttributeValue
  | AttributeValueDoubleQuoted
  | AttributeValueSingleQuoted
  | AttributeValueUnquoted
  | AfterAttributeValueQuoted
  | SelfClosingStartTag
  | ScriptData
  | ScriptDataLessThanSign
  | ScriptDataEndTagOpen
  | ScriptDataEndTagName
  | TemporaryBuffer
deriving DecidableEq, Repr

/-- `HtmlTokenizer` from token.rs. -/
structure HtmlTokenizer where
  state : State
  pos : Nat
  reconsume : Bool
  latest_token : Option HtmlToken
  input : List Char
  buf : List Char
deriving DecidableEq, Repr

/-- The single-quote character, written via its code point. -/
def squote : Char := Char.ofNat 39

/-- The double-quote character, written via its code point. -/
def dquote : Char := Char.ofNat 34

/-- Rust `char::is_ascii_uppercase`. -/
def is_ascii_uppercase (c : Char) : Bool := 65 ≤ c.toNat && c.toNat ≤ 90

/-- Rust `char::is_ascii_alphabetic`. -/
def is_ascii_alphabetic (c : Char) : Bool :=
  (65 ≤ c.toNat && c.toNat ≤ 90) || (97 ≤ c.toNat && c.toNat ≤ 122)

/-- Rust `char::to_ascii_lowercase`. -/
def to_ascii_lowercase (c : Char) : Char :=
  if is_ascii_uppercase c then Char.ofNat (c.toNat + 32) else c

/-- The three fatal branches of the token/attribute helpers in token.rs:
`assert!(self.latest_token.is_some())` failing, the `panic!` on an
in-construction token of the wrong variant, and `assert!(len > 0)` failing in
`append_attribute`. -/
inductive ContractKind where
  | noneToken
  | wrongVariant
  | emptyAttrs
deriving DecidableEq, Repr

/-- `HtmlTokenizer::new`. -/
def HtmlTokenizer.new (html : List Char) : HtmlTokenizer :=
  { state := .Data, pos := 0, reconsume := false, latest_token := none,
    input := html, buf := [] }

/-- `HtmlTokenizer::is_eof`: `self.pos > self.input.len()`. -/
def is_eof (tk : HtmlTokenizer) : Bool := decide (tk.input.length < tk.pos)

/-- `HtmlTokenizer::consume_next_input`: `self.input[self.pos]` then `pos += 1`;
`none` is the out-of-bounds index panic. -/
def consume_next_input (tk : HtmlTokenizer) : Option (Char × HtmlTokenizer) :=
  match tk.input[tk.pos]? with
  | none => none
  | some c => some (c, { tk with pos := tk.pos + 1 })

/-- `HtmlTokenizer::reconsume_input`: clears the flag and reads
`self.input[self.pos - 1]`; `none` is the panic on `pos = 0` underflow or an
out-of-bounds index. -/
def reconsume_input (tk : HtmlTokenizer) : Option (Char × HtmlTokenizer) :=
  if tk.pos = 0 then none
  else
    match tk.input[tk.pos - 1]? with
    | none => none
    | some c => some (c, { tk with reconsume := false })

/-- The character read at the head of the `Iterator::next` loop. -/
def readChar (tk : HtmlTokenizer) : Option (Char × HtmlTokenizer) :=
  if tk.reconsume then reconsume_input tk else consume_next_input tk

/-- `HtmlTokenizer::create_tag`. -/
def create_tag (start_tag_token : Bool) : Option HtmlToken :=
  if start_tag_token then some (.StartTag [] false []) else some (.EndTag [])

/-- `HtmlTokenizer::append_tag_name` acting on the `latest_token` field. -/
def append_tag_name (lt : Option HtmlToken) (c : Char) :
    Except ContractKind (Option HtmlToken) :=
  match lt with
  | none => .error .noneToken
  | some (.StartTag tag sc attributes) => .ok (some (.StartTag (tag ++ [c]) sc attributes))
  | some (.EndTag tag) => .ok (some (.EndTag (tag ++ [c])))
  | some _ => .error .wrongVariant

/-- `HtmlTokenizer::set_self_closing_flag` acting on the `latest_token` field. -/
def set_self_closing_flag (lt : Option HtmlToken) :
    Except ContractKind (Option HtmlToken) :=
  match lt with
  | none => .error .noneToken
  | some (.StartTag tag _ attributes) => .ok (some (.StartTag tag true attributes))
  | some _ => .error .wrongVariant

/-- `HtmlTokenizer::take_latest_token` acting on the `latest_token` field:
asserts presence, returns the token (the field is cleared at the call sites). -/
def take_latest_token (lt : Option HtmlToken) : Except ContractKind HtmlToken :=
  match lt with
  | none => .error .noneToken
  | some t => .ok t

/-- `HtmlTokenizer::start_new_attribute` acting on the `latest_token` field. -/
def start_new_attribute (lt : Option HtmlToken) :
    Except ContractKind (Option HtmlToken) :=
  match lt with
  | none => .error .noneToken
  | some (.StartTag tag sc attributes) =>
    .ok (some (.StartTag tag sc (attributes ++ [Attribute.new])))
  | some _ => .error .wrongVariant

/-- `attributes[len - 1].add_char(..)`: apply `f` to the last element. -/
def pushLast : List Attribute → (Attribute → Attribute) → List Attribute
  | [], _ => []
  | [a], f => [f a]
  | a :: b :: rest, f => a :: pushLast (b :: rest) f

/-- `HtmlTokenizer::append_attribute` acting on the `latest_token` field. -/
def append_attribute (lt : Option HtmlToken) (c : Char) (is_name : Bool) :
    Except ContractKind (Option HtmlToken) :=
  match lt with
  | none => .error .noneToken
  | some (.StartTag tag sc attributes) =>
    if attributes.length = 0 then .error .emptyAttrs
    else .ok (some (.StartTag tag sc (pushLast attributes (fun a => a.add_char c is_name))))
  | some _ => .error .wrongVariant

/-- Outcome of the `loop` body of `Iterator::next` run to a `return`:
a yielded token, an out-of-bounds index panic, a helper contract-violation
panic, or fuel exhaustion of the model. -/
inductive InnerRes where
  | tok (t : HtmlToken) (tk : HtmlTokenizer)
  | panicIndex
  | panicContract (k : ContractKind)
  | noFuel
deriving DecidableEq, Repr

/-- The `loop` of `Iterator::next`, one constructor per `State` arm. -/
def nextAux : Nat → HtmlTokenizer → InnerRes
  | 0, _ => .noFuel
  | n + 1, tk =>
    match readChar tk with
    | none => .panicIndex
    | some (c, tk1) =>
      match tk1.state with
      | .Data =>
        if c = '<' then nextAux n { tk1 with state := .TagOpen }
        else if is_eof tk1 then .tok .Eof tk1
        else .tok (.Char c) tk1
      | .TagOpen =>
        if c = '/' then nextAux n { tk1 with state := .EndTagOpen }
        else if is_ascii_alphabetic c then
          nextAux n { tk1 with reconsume := true, state := .TagName,
                               latest_token := create_tag true }
        else if is_eof tk1 then .tok .Eof tk1
        else nextAux n { tk1 with reconsume := true, state := .Data }
      | .EndTagOpen =>
        if is_eof tk1 then .tok .Eof tk1
        else if is_ascii_alphabetic c then
          nextAux n { tk1 with reconsume := true, state := .TagName,
                               latest_token := create_tag false }
        else nextAux n tk1
      | .TagName =>
        if c = ' ' then nextAux n { tk1 with state := .BeforeAttributeName }
        else if c = '/' then nextAux n { tk1 with state := .SelfClosingStartTag }
        else if c = '>' then
          match take_latest_token tk1.latest_token with
          | .error k => .panicContract k
          | .ok t => .tok t { tk1 with state := .Data, latest_token := none }
        else if is_ascii_uppercase c then
          match append_tag_name tk1.latest_token (to_ascii_lowercase c) with
          | .error k => .panicContract k
          | .ok lt => nextAux n { tk1 with latest_token := lt }
        else if is_eof tk1 then .tok .Eof tk1
        else
          match append_tag_name tk1.latest_token c with
          | .error k => .panicContract k
          | .ok lt => nextAux n { tk1 with latest_token := lt }
      | .BeforeAttributeName =>
        if c = '/' ∨ c = '>' ∨ is_eof tk1 then
          nextAux n { tk1 with reconsume := true, state := .AfterAttributeName }
        else
          match start_new_attribute tk1.latest_token with
          | .error k => .panicContract k
          | .ok lt => nextAux n { tk1 with reconsume := true, state := .AttributeName,
                                           latest_token := lt }
      | .AttributeName =>
        if c = ' ' ∨ c = '/' ∨ c = '>' ∨ is_eof tk1 then
          nextAux n { tk1 with reconsume := true, state := .AfterAttributeName }
        else if c = '=' then nextAux n { tk1 with state := .BeforeAttributeValue }
        else if is_ascii_uppercase c then
          match append_attribute tk1.latest_token (to_ascii_lowercase c) true with
          | .error k => .panicContract k
          | .ok lt => nextAux n { tk1 with latest_token := lt }
        else
          match append_attribute tk1.latest_token c true with
          | .error k => .panicContract k
          | .ok lt => nextAux n { tk1 with latest_token := lt }
      | .AfterAttributeName =>
        if c = ' ' then nextAux n tk1
        else if c = '/' then nextAux n { tk1 with state := .SelfClosingStartTag }
        else if c = '=' then nextAux n { tk1 with state := .BeforeAttributeValue }
        else if c = '>' then
          match take_latest_token tk1.latest_token with
          | .error k => .panicContract k
          | .ok t => .tok t { tk1 with state := .Data, latest_token := none }
        else if is_eof tk1 then .tok .Eof tk1
        else
          match start_new_attribute tk1.latest_token with
          | .error k => .panicContract k
          | .ok lt => nextAux n { tk1 with reconsume := true, state := .AttributeName,
                                           latest_token := lt }
      | .BeforeAttributeValue =>
        if c = ' ' then nextAux n tk1
        else if c = dquote then nextAux n { tk1 with state := .AttributeValueDoubleQuoted }
        else if c = squote then nextAux n { tk1 with state := .AttributeValueSingleQuoted }
        else nextAux n { tk1 with reconsume := true, state := .AttributeValueUnquoted }
      | .AttributeValueDoubleQuoted =>
        if c = dquote then nextAux n { tk1 with state := .AfterAttributeValueQuoted }
        else if is_eof tk1 then .tok .Eof tk1
        else
          match append_attribute tk1.latest_token c false with
          | .error k => .panicContract k
          | .ok lt => nextAux n { tk1 with latest_token := lt }
      | .AttributeValueSingleQuoted =>
        if c = squote then nextAux n { tk1 with state := .AfterAttributeValueQuoted }
        else if is_eof tk1 then .tok .Eof tk1
        else
          match append_attribute tk1.latest_token c false with
          | .error k => .panicContract k
          | .ok lt => nextAux n { tk1 with latest_token := lt }
      | .AttributeValueUnquoted =>
        if c = ' ' then nextAux n { tk1 with state := .BeforeAttributeName }
        else if c = '>' then
          match take_latest_token tk1.latest_token with
          | .error k => .panicContract k
          | .ok t => .tok t { tk1 with state := .Data, latest_token := none }
        else if is_eof tk1 then .tok .Eof tk1
        else
          match append_attribute tk1.latest_token c false with
          | .error k => .panicContract k
          | .ok lt => nextAux n { tk1 with latest_token := lt }
      | .AfterAttributeValueQuoted =>
        if c = ' ' then nextAux n { tk1 with state := .BeforeAttributeName }
        else if c = '/' then nextAux n { tk1 with state := .SelfClosingStartTag }
        else if c = '>' then
          match take_latest_token tk1.latest_token with
          | .error k => .panicContract k
          | .ok t => .tok t { tk1 with state := .Data, latest_token := none }
        else if is_eof tk1 then .tok .Eof tk1
        else nextAux n { tk1 with reconsume := true, state := .BeforeAttributeName }
      | .SelfClosingStartTag =>
        if c = '>' then
          match set_self_closing_flag tk1.latest_token with
          | .error k => .panicContract k
          | .ok lt =>
            match take_latest_token lt with
            | .error k => .panicContract k
            | .ok t => .tok t { tk1 with state := .Data, latest_token := none }
        else if is_eof tk1 then .tok .Eof tk1
        else nextAux n tk1
      | .ScriptData =>
        if c = '<' then nextAux n { tk1 with state := .ScriptDataLessThanSign }
        else if is_eof tk1 then .tok .Eof tk1
        else .tok (.Char c) tk1
      | .ScriptDataLessThanSign =>
        if c = '/' then nextAux n { tk1 with buf := [], state := .ScriptDataEndTagOpen }
        else .tok (.Char c) { tk1 with reconsume := true, state := .ScriptData }
      | .ScriptDataEndTagOpen =>
        if is_ascii_alphabetic c then
          nextAux n { tk1 with reconsume := true, state := .ScriptDataEndTagName,
                               latest_token := create_tag false }
        else .tok (.Char '<') { tk1 with reconsume := true, state := .ScriptData }
      | .ScriptDataEndTagName =>
        if c = '>' then
          match take_latest_token tk1.latest_token with
          | .error k => .panicContract k
          | .ok t => .tok t { tk1 with state := .Data, latest_token := none }
        else if is_ascii_alphabetic c then
          match append_tag_name tk1.latest_token (to_ascii_lowercase c) with
          | .error k => .panicContract k
          | .ok lt => nextAux n { tk1 with buf := tk1.buf ++ [c], latest_token := lt }
        else
          nextAux n { tk1 with state := .TemporaryBuffer, buf := ('<' :: tk1.buf) ++ [c] }
      | .TemporaryBuffer =>
        match tk1.buf with
        | [] => nextAux n { tk1 with reconsume := true, state := .ScriptData }
        | c0 :: rest => .tok (.Char c0) { tk1 with reconsume := true, buf := rest }

/-- Fuel amply covering one call of `Iterator::next` (each token is produced
after at most `input` plus replay-buffer many loop iterations). -/
def nextFuel (tk : HtmlTokenizer) : Nat := 4 * (tk.input.length + tk.buf.length + 2)

/-- Result of one `Iterator::next` call: `fin` is the `None` of the initial
`self.pos >= self.input.len()` check (end of sequence). -/
inductive NextRes where
  | tok (t : HtmlToken) (tk : HtmlTokenizer)
  | fin (tk : HtmlTokenizer)
  | panicIndex
  | panicContract (k : ContractKind)
  | noFuel
deriving DecidableEq, Repr

/-- `Iterator::next` for `HtmlTokenizer`. -/
def next (tk : HtmlTokenizer) : NextRes :=
  if tk.input.length ≤ tk.pos then .fin tk
  else
    match nextAux (nextFuel tk) tk with
    | .tok t tk' => .tok t tk'
    | .panicIndex => .panicIndex
    | .panicContract k => .panicContract k
    | .noFuel => .noFuel

/-- How a complete token-pulling run ends. -/
inductive RunEnd where
  | finished
  | panickedIndex
  | panickedContract (k : ContractKind)
  | outOfSteps
deriving DecidableEq, Repr

/-- Pull tokens repeatedly, collecting them in order. -/
def runAux : Nat → HtmlTokenizer → List HtmlToken × RunEnd
  | 0, _ => ([], .outOfSteps)
  | n + 1, tk =>
    match next tk with
    | .fin _ => ([], .finished)
    | .tok t tk' =>
      let r := runAux n tk'
      (t :: r.1, r.2)
    | .panicIndex => ([], .panickedIndex)
    | .panicContract k => ([], .panickedContract k)
    | .noFuel => ([], .outOfSteps)

/-- Drive a fresh tokenizer over the whole input. -/
def tokenize (html : List Char) : List HtmlToken × RunEnd :=
  runAux (3 * html.length + 5) (HtmlTokenizer.new html)

end Tok

namespace Tok

/-- Tag tokens (`StartTag`/`EndTag`). -/
def isTag : HtmlToken → Bool
  | .StartTag _ _ _ => true
  | .EndTag _ => true
  | _ => false

/-- An attribute whose name contains no ASCII uppercase letter. -/
def attr_name_ok (a : Attribute) : Bool := a.name.all (fun ch => !(is_ascii_uppercase ch))

/-- Tag name and attribute names of a token contain no ASCII uppercase letter. -/
def tokNamesOk : HtmlToken → Bool
  | .StartTag tag _ attributes =>
    tag.all (fun ch => !(is_ascii_uppercase ch)) && attributes.all attr_name_ok
  | .EndTag tag => tag.all (fun ch => !(is_ascii_uppercase ch))
  | _ => true

/-- Invariant on the in-construction token slot: empty, or a `StartTag`/`EndTag`
whose accumulated names are already lower-cased. -/
def latestOk : Option HtmlToken → Bool
  | none => true
  | some t => isTag t && tokNamesOk t

/-- What every token yielded by the `Iterator::next` loop satisfies, given
`latestOk` on entry: the invariant is maintained, the explicit `Eof` token is
never yielded, yielded names are lower-cased, a tag token is only yielded right
after consuming a `>`, and a `Char` yielded from the `Data` arm is exactly the
scalar value just read from the input. -/
def tokOut (t : HtmlToken) (tk' : HtmlTokenizer) : Prop :=
  latestOk tk'.latest_token = true ∧ t ≠ .Eof ∧ tokNamesOk t = true ∧
  (isTag t = true → 1 ≤ tk'.pos ∧ tk'.input[tk'.pos - 1]? = some '>') ∧
  (∀ c, t = .Char c → tk'.state = .Data → 1 ≤ tk'.pos ∧ tk'.input[tk'.pos - 1]? = some c)

theorem char_toNat_ofNat (n : Nat) (h : n.isValidChar) : (Char.ofNat n).toNat = n := by
  simp [Char.ofNat, h, Char.toNat, Char.ofNatAux, UInt32.toNat, BitVec.toNat_ofNatLt]

theorem lower_not_upper (c : Char) : is_ascii_uppercase (to_ascii_lowercase c) = false := by
  unfold to_ascii_lowercase
  by_cases h : is_ascii_uppercase c = true
  · simp only [h, if_true]
    have hb : (65 ≤ c.toNat ∧ c.toNat ≤ 90) := by
      simpa [is_ascii_uppercase, Bool.and_eq_true, decide_eq_true_iff] using h
    have hv : (c.toNat + 32).isValidChar := by
      left
      omega
    have h2 : (Char.ofNat (c.toNat + 32)).toNat = c.toNat + 32 := char_toNat_ofNat _ hv
    simp only [is_ascii_uppercase, h2]
    have h3 : ¬ (c.toNat + 32 ≤ 90) := by omega
    simp [h3]
  · have h2 : is_ascii_uppercase c = false := by
      revert h
      cases is_ascii_uppercase c <;> simp
    simp [h2]

theorem readChar_some {tk tk1 : HtmlTokenizer} {c : Char}
    (h : readChar tk = some (c, tk1)) :
    tk1.state = tk.state ∧ tk1.latest_token = tk.latest_token ∧
    tk1.input = tk.input ∧ tk1.buf = tk.buf ∧ tk1.reconsume = false ∧
    1 ≤ tk1.pos ∧ tk1.pos ≤ tk1.input.length ∧
    tk1.input[tk1.pos - 1]? = some c ∧
    (tk.reconsume = false → tk1.pos = tk.pos + 1) ∧
    (tk.reconsume = true → tk1.pos = tk.pos) := by
  unfold readChar at h
  by_cases hr : tk.reconsume
  · rw [if_pos hr] at h
    unfold reconsume_input at h
    by_cases hp : tk.pos = 0
    · rw [if_pos hp] at h
      exact absurd h (by simp)
    · rw [if_neg hp] at h
      cases hg : tk.input[tk.pos - 1]? with
      | none => rw [hg] at h; exact absurd h (by simp)
      | some c' =>
        rw [hg] at h
        have hc : c' = c ∧ ({ tk with reconsume := false } : HtmlTokenizer) = tk1 := by
          simpa using h
        obtain ⟨hc1, hc2⟩ := hc
        subst hc1
        subst hc2
        have hlt : tk.pos - 1 < tk.input.length := by
          have := List.getElem?_eq_some.mp hg
          exact this.1
        simp [hr, hg]
        omega
  · rw [if_neg hr] at h
    unfold consume_next_input at h
    cases hg : tk.input[tk.pos]? with
    | none => rw [hg] at h; exact absurd h (by simp)
    | some c' =>
      rw [hg] at h
      have hc : c' = c ∧ ({ tk with pos := tk.pos + 1 } : HtmlTokenizer) = tk1 := by
        simpa using h
      obtain ⟨hc1, hc2⟩ := hc
      subst hc1
      subst hc2
      have hlt : tk.pos < tk.input.length := by
        have := List.getElem?_eq_some.mp hg
        exact this.1
      simp [hg, hr]
      omega

end Tok

namespace Tok

theorem create_tag_ok (b : Bool) : latestOk (create_tag b) = true := by
  cases b <;> rfl

theorem take_spec {lt : Option HtmlToken} {t0 : HtmlToken}
    (hok : latestOk lt = true) (h : take_latest_token lt = .ok t0) :
    isTag t0 = true ∧ tokNamesOk t0 = true ∧ t0 ≠ .Eof ∧ ∀ c, t0 ≠ .Char c := by
  cases lt with
  | none => exact absurd h (by simp [take_latest_token])
  | some t =>
    have ht : t = t0 := by simpa [take_latest_token] using h
    subst ht
    have := hok
    simp only [latestOk, Bool.and_eq_true] at this
    refine ⟨this.1, this.2, ?_, ?_⟩
    · cases t <;> simp_all [isTag]
    · intro c
      cases t <;> simp_all [isTag]

theorem append_tag_name_spec {lt lt' : Option HtmlToken} {c : Char}
    (hok : latestOk lt = true) (hc : is_ascii_uppercase c = false)
    (h : append_tag_name lt c = .ok lt') : latestOk lt' = true := by
  cases lt with
  | none => exact absurd h (by simp [append_tag_name])
  | some t =>
    cases t with
    | StartTag tag sc attributes =>
      have h2 : some (HtmlToken.StartTag (tag ++ [c]) sc attributes) = lt' := by
        simpa [append_tag_name] using h
      subst h2
      simp only [latestOk, tokNamesOk, isTag, Bool.and_eq_true, List.all_append,
        List.all_cons, List.all_nil, Bool.not_eq_true'] at *
      exact ⟨trivial, ⟨⟨hok.2.1, hc, trivial⟩, hok.2.2⟩⟩
    | EndTag tag =>
      have h2 : some (HtmlToken.EndTag (tag ++ [c])) = lt' := by
        simpa [append_tag_name] using h
      subst h2
      simp only [latestOk, tokNamesOk, isTag, Bool.and_eq_true, List.all_append,
        List.all_cons, List.all_nil, Bool.not_eq_true'] at *
      exact ⟨trivial, hok.2, hc, trivial⟩
    | Char c0 => exact absurd h (by simp [append_tag_name])
    | Eof => exact absurd h (by simp [append_tag_name])

theorem set_self_closing_flag_spec {lt lt' : Option HtmlToken}
    (hok : latestOk lt = true) (h : set_self_closing_flag lt = .ok lt') :
    latestOk lt' = true := by
  cases lt with
  | none => exact absurd h (by simp [set_self_closing_flag])
  | some t =>
    cases t with
    | StartTag tag sc attributes =>
      have h2 : some (HtmlToken.StartTag tag true attributes) = lt' := by
        simpa [set_self_closing_flag] using h
      subst h2
      simpa [latestOk, tokNamesOk, isTag] using hok
    | EndTag tag => exact absurd h (by simp [set_self_closing_flag])
    | Char c0 => exact absurd h (by simp [set_self_closing_flag])
    | Eof => exact absurd h (by simp [set_self_closing_flag])

theorem start_new_attribute_spec {lt lt' : Option HtmlToken}
    (hok : latestOk lt = true) (h : start_new_attribute lt = .ok lt') :
    latestOk lt' = true := by
  cases lt with
  | none => exact absurd h (by simp [start_new_attribute])
  | some t =>
    cases t with
    | StartTag tag sc attributes =>
      have h2 : some (HtmlToken.StartTag tag sc (attributes ++ [Attribute.new])) = lt' := by
        simpa [start_new_attribute] using h
      subst h2
      simp only [latestOk, tokNamesOk, isTag, Bool.and_eq_true, List.all_eq_true] at *
      refine ⟨trivial, hok.2.1, ?_⟩
      intro x hx
      rcases List.mem_append.mp hx with h1 | h2
      · exact hok.2.2 x h1
      · rw [List.mem_singleton.mp h2]
        rfl
    | EndTag tag => exact absurd h (by simp [start_new_attribute])
    | Char c0 => exact absurd h (by simp [start_new_attribute])
    | Eof => exact absurd h (by simp [start_new_attribute])

theorem pushLast_all {l : List Attribute} {p : Attribute → Bool} {f : Attribute → Attribute}
    (hl : ∀ x ∈ l, p x = true) (hf : ∀ a, p a = true → p (f a) = true) :
    ∀ x ∈ pushLast l f, p x = true := by
  induction l with
  | nil => intro x hx; simp [pushLast] at hx
  | cons a rest ih =>
    cases rest with
    | nil =>
      intro x hx
      simp only [pushLast, List.mem_singleton] at hx
      subst hx
      exact hf a (hl a (by simp))
    | cons b rest2 =>
      intro x hx
      simp only [pushLast, List.mem_cons] at hx
      rcases hx with h1 | h2
      · subst h1
        exact hl x (by simp)
      · exact ih (fun y hy => hl y (List.mem_cons_of_mem a hy)) x h2

theorem add_char_name_ok {a : Attribute} {c : Char} {is_name : Bool}
    (ha : attr_name_ok a = true) (hc : is_name = true → is_ascii_uppercase c = false) :
    attr_name_ok (a.add_char c is_name) = true := by
  cases is_name with
  | false => simpa [Attribute.add_char, attr_name_ok] using ha
  | true =>
    have hcc : is_ascii_uppercase c = false := hc rfl
    have hadd : a.add_char c true = { a with name := a.name ++ [c] } := by
      simp [Attribute.add_char]
    rw [hadd]
    simp only [attr_name_ok, List.all_eq_true] at ha ⊢
    intro x hx
    rcases List.mem_append.mp hx with h1 | h2
    · exact ha x h1
    · rw [List.mem_singleton.mp h2]
      simp [hcc]

theorem append_attribute_spec {lt lt' : Option HtmlToken} {c : Char} {is_name : Bool}
    (hok : latestOk lt = true) (hc : is_name = true → is_ascii_uppercase c = false)
    (h : append_attribute lt c is_name = .ok lt') : latestOk lt' = true := by
  cases lt with
  | none => exact absurd h (by simp [append_attribute])
  | some t =>
    cases t with
    | StartTag tag sc attributes =>
      by_cases hlen : attributes.length = 0
      · exact absurd h (by simp [append_attribute, hlen])
      · have h2 : some (HtmlToken.StartTag tag sc
            (pushLast attributes (fun a => a.add_char c is_name))) = lt' := by
          simpa [append_attribute, hlen] using h
        subst h2
        simp only [latestOk, tokNamesOk, isTag, Bool.and_eq_true, List.all_eq_true] at *
        refine ⟨trivial, hok.2.1, ?_⟩
        exact pushLast_all hok.2.2 (fun a ha => add_char_name_ok ha hc)
    | EndTag tag => exact absurd h (by simp [append_attribute])
    | Char c0 => exact absurd h (by simp [append_attribute])
    | Eof => exact absurd h (by simp [append_attribute])

end Tok

namespace Tok

theorem nextAux_tok (n : Nat) :
    ∀ (tk : HtmlTokenizer), latestOk tk.latest_token = true →
    ∀ (t : HtmlToken) (tk' : HtmlTokenizer), nextAux n tk = .tok t tk' → tokOut t tk' := by
  induction n with
  | zero =>
    intro tk _ t tk' he
    simp [nextAux] at he
  | succ n ih =>
    intro tk hlatest t tk' he
    simp only [nextAux] at he
    cases hr : readChar tk with
    | none =>
      rw [hr] at he
      exact absurd he (by simp)
    | some p =>
      obtain ⟨c, tk1⟩ := p
      simp only [hr] at he
      obtain ⟨hst, hlt1, hin, hbuf, hrc, hpos1, hposle, hget, _, _⟩ := readChar_some hr
      have hok1 : latestOk tk1.latest_token = true := by rw [hlt1]; exact hlatest
      have heof : is_eof tk1 = false := by
        simp only [is_eof, decide_eq_false_iff_not, not_lt]
        exact hposle
      cases hss : tk1.state
      case Data =>
        simp only [hss, heof, Bool.false_eq_true, if_false] at he
        by_cases hc1 : c = '<'
        · rw [if_pos hc1] at he
          exact ih _ (by simpa using hok1) _ _ he
        · rw [if_neg hc1] at he
          injection he with h1 h2
          subst h1
          subst h2
          refine ⟨hok1, by simp, by rfl, ?_, ?_⟩
          · intro hT
            simp [isTag] at hT
          · intro c' hc' hstate
            injection hc' with h3
            subst h3
            exact ⟨hpos1, hget⟩
      case TagOpen =>
        simp only [hss, heof, Bool.false_eq_true, if_false] at he
        by_cases hc1 : c = '/'
        · rw [if_pos hc1] at he
          exact ih _ (by simpa using hok1) _ _ he
        · rw [if_neg hc1] at he
          by_cases hc2 : is_ascii_alphabetic c = true
          · rw [if_pos hc2] at he
            exact ih _ (by simpa using create_tag_ok true) _ _ he
          · rw [if_neg hc2] at he
            exact ih _ (by simpa using hok1) _ _ he
      case EndTagOpen =>
        simp only [hss, heof, Bool.false_eq_true, if_false] at he
        by_cases hc2 : is_ascii_alphabetic c = true
        · rw [if_pos hc2] at he
          exact ih _ (by simpa using create_tag_ok false) _ _ he
        · rw [if_neg hc2] at he
          exact ih _ hok1 _ _ he
      case TagName =>
        simp only [hss, heof, Bool.false_eq_true, if_false] at he
        by_cases hc1 : c = ' '
        · rw [if_pos hc1] at he
          exact ih _ (by simpa using hok1) _ _ he
        · rw [if_neg hc1] at he
          by_cases hc2 : c = '/'
          · rw [if_pos hc2] at he
            exact ih _ (by simpa using hok1) _ _ he
          · rw [if_neg hc2] at he
            by_cases hc3 : c = '>'
            · rw [if_pos hc3] at he
              subst hc3
              cases hta : take_latest_token tk1.latest_token with
              | error k =>
                simp only [hta] at he
                exact absurd he (by simp)
              | ok t0 =>
                simp only [hta] at he
                injection he with h1 h2
                subst h1
                subst h2
                obtain ⟨hTag, hNames, hNoEof, hNoChar⟩ := take_spec hok1 hta
                refine ⟨by rfl, hNoEof, hNames, ?_, ?_⟩
                · intro _
                  exact ⟨by simpa using hpos1, by simpa using hget⟩
                · intro c' hc'
                  exact absurd hc' (hNoChar c')
            · rw [if_neg hc3] at he
              by_cases hc4 : is_ascii_uppercase c = true
              · rw [if_pos hc4] at he
                cases hA : append_tag_name tk1.latest_token (to_ascii_lowercase c) with
                | error k =>
                  simp only [hA] at he
                  exact absurd he (by simp)
                | ok lt =>
                  simp only [hA] at he
                  exact ih _ (by simpa using append_tag_name_spec hok1 (lower_not_upper c) hA) _ _ he
              · rw [if_neg hc4] at he
                cases hA : append_tag_name tk1.latest_token c with
                | error k =>
                  simp only [hA] at he
                  exact absurd he (by simp)
                | ok lt =>
                  simp only [hA] at he
                  exact ih _ (by simpa using append_tag_name_spec hok1 (by simpa using hc4) hA) _ _ he
      case BeforeAttributeName =>
        simp only [hss, heof, Bool.false_eq_true, or_false] at he
        by_cases hd : c = '/' ∨ c = '>'
        · rw [if_pos hd] at he
          exact ih _ (by simpa using hok1) _ _ he
        · rw [if_neg hd] at he
          cases hA : start_new_attribute tk1.latest_token with
          | error k =>
            simp only [hA] at he
            exact absurd he (by simp)
          | ok lt =>
            simp only [hA] at he
            exact ih _ (by simpa using start_new_attribute_spec hok1 hA) _ _ he
      case AttributeName =>
        simp only [hss, heof, Bool.false_eq_true, or_false] at he
        by_cases hd : c = ' ' ∨ c = '/' ∨ c = '>'
        · rw [if_pos hd] at he
          exact ih _ (by simpa using hok1) _ _ he
        · rw [if_neg hd] at he
          by_cases hc1 : c = '='
          · rw [if_pos hc1] at he
            exact ih _ (by simpa using hok1) _ _ he
          · rw [if_neg hc1] at he
            by_cases hc4 : is_ascii_uppercase c = true
            · rw [if_pos hc4] at he
              cases hA : append_attribute tk1.latest_token (to_ascii_lowercase c) true with
              | error k =>
                simp only [hA] at he
                exact absurd he (by simp)
              | ok lt =>
                simp only [hA] at he
                exact ih _ (by simpa using append_attribute_spec hok1 (fun _ => lower_not_upper c) hA) _ _ he
            · rw [if_neg hc4] at he
              cases hA : append_attribute tk1.latest_token c true with
              | error k =>
                simp only [hA] at he
                exact absurd he (by simp)
              | ok lt =>
                simp only [hA] at he
                exact ih _ (by simpa using append_attribute_spec hok1 (fun _ => by simpa using hc4) hA) _ _ he
      case AfterAttributeName =>
        simp only [hss, heof, Bool.false_eq_true, if_false] at he
        by_cases hc1 : c = ' '
        · rw [if_pos hc1] at he
          exact ih _ hok1 _ _ he
        · rw [if_neg hc1] at he
          by_cases hc2 : c = '/'
          · rw [if_pos hc2] at he
            exact ih _ (by simpa using hok1) _ _ he
          · rw [if_neg hc2] at he
            by_cases hc3 : c = '='
            · rw [if_pos hc3] at he
              exact ih _ (by simpa using hok1) _ _ he
            · rw [if_neg hc3] at he
              by_cases hc4 : c = '>'
              · rw [if_pos hc4] at he
                subst hc4
                cases hta : take_latest_token tk1.latest_token with
                | error k =>
                  simp only [hta] at he
                  exact absurd he (by simp)
                | ok t0 =>
                  simp only [hta] at he
                  injection he with h1 h2
                  subst h1
                  subst h2
                  obtain ⟨hTag, hNames, hNoEof, hNoChar⟩ := take_spec hok1 hta
                  refine ⟨by rfl, hNoEof, hNames, ?_, ?_⟩
                  · intro _
                    exact ⟨by simpa using hpos1, by simpa using hget⟩
                  · intro c' hc'
                    exact absurd hc' (hNoChar c')
              · rw [if_neg hc4] at he
                cases hA : start_new_attribute tk1.latest_token with
                | error k =>
                  simp only [hA] at he
                  exact absurd he (by simp)
                | ok lt =>
                  simp only [hA] at he
                  exact ih _ (by simpa using start_new_attribute_spec hok1 hA) _ _ he
      case BeforeAttributeValue =>
        simp only [hss] at he
        by_cases hc1 : c = ' '
        · rw [if_pos hc1] at he
          exact ih _ hok1 _ _ he
        · rw [if_neg hc1] at he
          by_cases hc2 : c = dquote
          · rw [if_pos hc2] at he
            exact ih _ (by simpa using hok1) _ _ he
          · rw [if_neg hc2] at he
            by_cases hc3 : c = squote
            · rw [if_pos hc3] at he
              exact ih _ (by simpa using hok1) _ _ he
            · rw [if_neg hc3] at he
              exact ih _ (by simpa using hok1) _ _ he
      case AttributeValueDoubleQuoted =>
        simp only [hss, heof, Bool.false_eq_true, if_false] at he
        by_cases hc1 : c = dquote
        · rw [if_pos hc1] at he
          exact ih _ (by simpa using hok1) _ _ he
        · rw [if_neg hc1] at he
          cases hA : append_attribute tk1.latest_token c false with
          | error k =>
            simp only [hA] at he
            exact absurd he (by simp)
          | ok lt =>
            simp only [hA] at he
            exact ih _ (by simpa using append_attribute_spec hok1 (by simp) hA) _ _ he
      case AttributeValueSingleQuoted =>
        simp only [hss, heof, Bool.false_eq_true, if_false] at he
        by_cases hc1 : c = squote
        · rw [if_pos hc1] at he
          exact ih _ (by simpa using hok1) _ _ he
        · rw [if_neg hc1] at he
          cases hA : append_attribute tk1.latest_token c false with
          | error k =>
            simp only [hA] at he
            exact absurd he (by simp)
          | ok lt =>
            simp only [hA] at he
            exact ih _ (by simpa using append_attribute_spec hok1 (by simp) hA) _ _ he
      case AttributeValueUnquoted =>
        simp only [hss, heof, Bool.false_eq_true, if_false] at he
        by_cases hc1 : c = ' '
        · rw [if_pos hc1] at he
          exact ih _ (by simpa using hok1) _ _ he
        · rw [if_neg hc1] at he
          by_cases hc3 : c = '>'
          · rw [if_pos hc3] at he
            subst hc3
            cases hta : take_latest_token tk1.latest_token with
            | error k =>
              simp only [hta] at he
              exact absurd he (by simp)
            | ok t0 =>
              simp only [hta] at he
              injection he with h1 h2
              subst h1
              subst h2
              obtain ⟨hTag, hNames, hNoEof, hNoChar⟩ := take_spec hok1 hta
              refine ⟨by rfl, hNoEof, hNames, ?_, ?_⟩
              · intro _
                exact ⟨by simpa using hpos1, by simpa using hget⟩
              · intro c' hc'
                exact absurd hc' (hNoChar c')
          · rw [if_neg hc3] at he
            cases hA : append_attribute tk1.latest_token c false with
            | error k =>
              simp only [hA] at he
              exact absurd he (by simp)
            | ok lt =>
              simp only [hA] at he
              exact ih _ (by simpa using append_attribute_spec hok1 (by simp) hA) _ _ he
      case AfterAttributeValueQuoted =>
        simp only [hss, heof, Bool.false_eq_true, if_false] at he
        by_cases hc1 : c = ' '
        · rw [if_pos hc1] at he
          exact ih _ (by simpa using hok1) _ _ he
        · rw [if_neg hc1] at he
          by_cases hc2 : c = '/'
          · rw [if_pos hc2] at he
            exact ih _ (by simpa using hok1) _ _ he
          · rw [if_neg hc2] at he
            by_cases hc3 : c = '>'
            · rw [if_pos hc3] at he
              subst hc3
              cases hta : take_latest_token tk1.latest_token with
              | error k =>
                simp only [hta] at he
                exact absurd he (by simp)
              | ok t0 =>
                simp only [hta] at he
                injection he with h1 h2
                subst h1
                subst h2
                obtain ⟨hTag, hNames, hNoEof, hNoChar⟩ := take_spec hok1 hta
                refine ⟨by rfl, hNoEof, hNames, ?_, ?_⟩
                · intro _
                  exact ⟨by simpa using hpos1, by simpa using hget⟩
                · intro c' hc'
                  exact absurd hc' (hNoChar c')
            · rw [if_neg hc3] at he
              exact ih _ (by simpa using hok1) _ _ he
      case SelfClosingStartTag =>
        simp only [hss, heof, Bool.false_eq_true, if_false] at he
        by_cases hc1 : c = '>'
        · rw [if_pos hc1] at he
          subst hc1
          cases hS : set_self_closing_flag tk1.latest_token with
          | error k =>
            simp only [hS] at he
            exact absurd he (by simp)
          | ok lt =>
            simp only [hS] at he
            have hokS := set_self_closing_flag_spec hok1 hS
            cases hta : take_latest_token lt with
            | error k =>
              simp only [hta] at he
              exact absurd he (by simp)
            | ok t0 =>
              simp only [hta] at he
              injection he with h1 h2
              subst h1
              subst h2
              obtain ⟨hTag, hNames, hNoEof, hNoChar⟩ := take_spec hokS hta
              refine ⟨by rfl, hNoEof, hNames, ?_, ?_⟩
              · intro _
                exact ⟨by simpa using hpos1, by simpa using hget⟩
              · intro c' hc'
                exact absurd hc' (hNoChar c')
        · rw [if_neg hc1] at he
          exact ih _ hok1 _ _ he
      case ScriptData =>
        simp only [hss, heof, Bool.false_eq_true, if_false] at he
        by_cases hc1 : c = '<'
        · rw [if_pos hc1] at he
          exact ih _ (by simpa using hok1) _ _ he
        · rw [if_neg hc1] at he
          injection he with h1 h2
          subst h1
          subst h2
          refine ⟨hok1, by simp, by rfl, ?_, ?_⟩
          · intro hT
            simp [isTag] at hT
          · intro c' hc' hstate
            rw [hss] at hstate
            exact absurd hstate (by simp)
      case ScriptDataLessThanSign =>
        simp only [hss] at he
        by_cases hc1 : c = '/'
        · rw [if_pos hc1] at he
          exact ih _ (by simpa using hok1) _ _ he
        · rw [if_neg hc1] at he
          injection he with h1 h2
          subst h1
          subst h2
          refine ⟨by simpa using hok1, by simp, by rfl, ?_, ?_⟩
          · intro hT
            simp [isTag] at hT
          · intro c' hc' hstate
            simp at hstate
      case ScriptDataEndTagOpen =>
        simp only [hss] at he
        by_cases hc2 : is_ascii_alphabetic c = true
        · rw [if_pos hc2] at he
          exact ih _ (by simpa using create_tag_ok false) _ _ he
        · rw [if_neg hc2] at he
          injection he with h1 h2
          subst h1
          subst h2
          refine ⟨by simpa using hok1, by simp, by rfl, ?_, ?_⟩
          · intro hT
            simp [isTag] at hT
          · intro c' hc' hstate
            simp at hstate
      case ScriptDataEndTagName =>
        simp only [hss] at he
        by_cases hc1 : c = '>'
        · rw [if_pos hc1] at he
          subst hc1
          cases hta : take_latest_token tk1.latest_token with
          | error k =>
            simp only [hta] at he
            exact absurd he (by simp)
          | ok t0 =>
            simp only [hta] at he
            injection he with h1 h2
            subst h1
            subst h2
            obtain ⟨hTag, hNames, hNoEof, hNoChar⟩ := take_spec hok1 hta
            refine ⟨by rfl, hNoEof, hNames, ?_, ?_⟩
            · intro _
              exact ⟨by simpa using hpos1, by simpa using hget⟩
            · intro c' hc'
              exact absurd hc' (hNoChar c')
        · rw [if_neg hc1] at he
          by_cases hc2 : is_ascii_alphabetic c = true
          · rw [if_pos hc2] at he
            cases hA : append_tag_name tk1.latest_token (to_ascii_lowercase c) with
            | error k =>
              simp only [hA] at he
              exact absurd he (by simp)
            | ok lt =>
              simp only [hA] at he
              exact ih _ (by simpa using append_tag_name_spec hok1 (lower_not_upper c) hA) _ _ he
          · rw [if_neg hc2] at he
            exact ih _ (by simpa using hok1) _ _ he
      case TemporaryBuffer =>
        simp only [hss] at he
        cases hb : tk1.buf with
        | nil =>
          simp only [hb] at he
          exact ih _ (by simpa using hok1) _ _ he
        | cons c0 rest =>
          simp only [hb] at he
          injection he with h1 h2
          subst h1
          subst h2
          refine ⟨by simpa using hok1, by simp, by rfl, ?_, ?_⟩
          · intro hT
            simp [isTag] at hT
          · intro c' hc' hstate
            simp [hss] at hstate

end Tok

namespace Tok

/-- States outside the four raw-text (script-data) states and the replay
buffer state. -/
def notRaw : State → Bool
  | .ScriptData | .ScriptDataLessThanSign | .ScriptDataEndTagOpen
  | .ScriptDataEndTagName | .TemporaryBuffer => false
  | _ => true

theorem nextAux_notRaw (n : Nat) :
    ∀ (tk : HtmlTokenizer), notRaw tk.state = true → tk.buf = [] →
    ∀ (t : HtmlToken) (tk' : HtmlTokenizer), nextAux n tk = .tok t tk' →
      notRaw tk'.state = true ∧ tk'.buf = [] := by
  induction n with
  | zero =>
    intro tk _ _ t tk' he
    simp [nextAux] at he
  | succ n ih =>
    intro tk hnr hb0 t tk' he
    simp only [nextAux] at he
    cases hr : readChar tk with
    | none =>
      rw [hr] at he
      exact absurd he (by simp)
    | some p =>
      obtain ⟨c, tk1⟩ := p
      simp only [hr] at he
      obtain ⟨hst, hlt1, hin, hbuf, hrc, hpos1, hposle, hget, _, _⟩ := readChar_some hr
      have hnr1 : notRaw tk1.state = true := by rw [hst]; exact hnr
      have hb1 : tk1.buf = [] := by rw [hbuf]; exact hb0
      have heof : is_eof tk1 = false := by
        simp only [is_eof, decide_eq_false_iff_not, not_lt]
        exact hposle
      cases hss : tk1.state
      case Data =>
        simp only [hss, heof, Bool.false_eq_true, if_false] at he
        by_cases hc1 : c = '<'
        · rw [if_pos hc1] at he
          exact ih _ (by simp [notRaw]) (by simpa using hb1) _ _ he
        · rw [if_neg hc1] at he
          injection he with h1 h2
          subst h2
          exact ⟨by rw [hss]; rfl, hb1⟩
      case TagOpen =>
        simp only [hss, heof, Bool.false_eq_true, if_false] at he
        by_cases hc1 : c = '/'
        · rw [if_pos hc1] at he
          exact ih _ (by simp [notRaw]) (by simpa using hb1) _ _ he
        · rw [if_neg hc1] at he
          by_cases hc2 : is_ascii_alphabetic c = true
          · rw [if_pos hc2] at he
            exact ih _ (by simp [notRaw]) (by simpa using hb1) _ _ he
          · rw [if_neg hc2] at he
            exact ih _ (by simp [notRaw]) (by simpa using hb1) _ _ he
      case EndTagOpen =>
        simp only [hss, heof, Bool.false_eq_true, if_false] at he
        by_cases hc2 : is_ascii_alphabetic c = true
        · rw [if_pos hc2] at he
          exact ih _ (by simp [notRaw]) (by simpa using hb1) _ _ he
        · rw [if_neg hc2] at he
          exact ih _ hnr1 hb1 _ _ he
      case TagName =>
        simp only [hss, heof, Bool.false_eq_true, if_false] at he
        by_cases hc1 : c = ' '
        · rw [if_pos hc1] at he
          exact ih _ (by simp [notRaw]) (by simpa using hb1) _ _ he
        · rw [if_neg hc1] at he
          by_cases hc2 : c = '/'
          · rw [if_pos hc2] at he
            exact ih _ (by simp [notRaw]) (by simpa using hb1) _ _ he
          · rw [if_neg hc2] at he
            by_cases hc3 : c = '>'
            · rw [if_pos hc3] at he
              cases hta : take_latest_token tk1.latest_token with
              | error k =>
                simp only [hta] at he
                exact absurd he (by simp)
              | ok t0 =>
                simp only [hta] at he
                injection he with h1 h2
                subst h2
                exact ⟨by rfl, hb1⟩
            · rw [if_neg hc3] at he
              by_cases hc4 : is_ascii_uppercase c = true
              · rw [if_pos hc4] at he
                cases hA : append_tag_name tk1.latest_token (to_ascii_lowercase c) with
                | error k =>
                  simp only [hA] at he
                  exact absurd he (by simp)
                | ok lt =>
                  simp only [hA] at he
                  exact ih _ (by simpa [hss] using hnr1) (by simpa using hb1) _ _ he
              · rw [if_neg hc4] at he
                cases hA : append_tag_name tk1.latest_token c with
                | error k =>
                  simp only [hA] at he
                  exact absurd he (by simp)
                | ok lt =>
                  simp only [hA] at he
                  exact ih _ (by simpa [hss] using hnr1) (by simpa using hb1) _ _ he
      case BeforeAttributeName =>
        simp only [hss, heof, Bool.false_eq_true, or_false] at he
        by_cases hd : c = '/' ∨ c = '>'
        · rw [if_pos hd] at he
          exact ih _ (by simp [notRaw]) (by simpa using hb1) _ _ he
        · rw [if_neg hd] at he
          cases hA : start_new_attribute tk1.latest_token with
          | error k =>
            simp only [hA] at he
            exact absurd he (by simp)
          | ok lt =>
            simp only [hA] at he
            exact ih _ (by simp [notRaw]) (by simpa using hb1) _ _ he
      case AttributeName =>
        simp only [hss, heof, Bool.false_eq_true, or_false] at he
        by_cases hd : c = ' ' ∨ c = '/' ∨ c = '>'
        · rw [if_pos hd] at he
          exact ih _ (by simp [notRaw]) (by simpa using hb1) _ _ he
        · rw [if_neg hd] at he
          by_cases hc1 : c = '='
          · rw [if_pos hc1] at he
            exact ih _ (by simp [notRaw]) (by simpa using hb1) _ _ he
          · rw [if_neg hc1] at he
            by_cases hc4 : is_ascii_uppercase c = true
            · rw [if_pos hc4] at he
              cases hA : append_attribute tk1.latest_token (to_ascii_lowercase c) true with
              | error k =>
                simp only [hA] at he
                exact absurd he (by simp)
              | ok lt =>
                simp only [hA] at he
                exact ih _ (by simpa [hss] using hnr1) (by simpa using hb1) _ _ he
            · rw [if_neg hc4] at he
              cases hA : append_attribute tk1.latest_token c true with
              | error k =>
                simp only [hA] at he
                exact absurd he (by simp)
              | ok lt =>
                simp only [hA] at he
                exact ih _ (by simpa [hss] using hnr1) (by simpa using hb1) _ _ he
      case AfterAttributeName =>
        simp only [hss, heof, Bool.false_eq_true, if_false] at he
        by_cases hc1 : c = ' '
        · rw [if_pos hc1] at he
          exact ih _ hnr1 hb1 _ _ he
        · rw [if_neg hc1] at he
          by_cases hc2 : c = '/'
          · rw [if_pos hc2] at he
            exact ih _ (by simp [notRaw]) (by simpa using hb1) _ _ he
          · rw [if_neg hc2] at he
            by_cases hc3 : c = '='
            · rw [if_pos hc3] at he
              exact ih _ (by simp [notRaw]) (by simpa using hb1) _ _ he
            · rw [if_neg hc3] at he
              by_cases hc4 : c = '>'
              · rw [if_pos hc4] at he
                cases hta : take_latest_token tk1.latest_token with
                | error k =>
                  simp only [hta] at he
                  exact absurd he (by simp)
                | ok t0 =>
                  simp only [hta] at he
                  injection he with h1 h2
                  subst h2
                  exact ⟨by rfl, hb1⟩
              · rw [if_neg hc4] at he
                cases hA : start_new_attribute tk1.latest_token with
                | error k =>
                  simp only [hA] at he
                  exact absurd he (by simp)
                | ok lt =>
                  simp only [hA] at he
                  exact ih _ (by simp [notRaw]) (by simpa using hb1) _ _ he
      case BeforeAttributeValue =>
        simp only [hss] at he
        by_cases hc1 : c = ' '
        · rw [if_pos hc1] at he
          exact ih _ hnr1 hb1 _ _ he
        · rw [if_neg hc1] at he
          by_cases hc2 : c = dquote
          · rw [if_pos hc2] at he
            exact ih _ (by simp [notRaw]) (by simpa using hb1) _ _ he
          · rw [if_neg hc2] at he
            by_cases hc3 : c = squote
            · rw [if_pos hc3] at he
              exact ih _ (by simp [notRaw]) (by simpa using hb1) _ _ he
            · rw [if_neg hc3] at he
              exact ih _ (by simp [notRaw]) (by simpa using hb1) _ _ he
      case AttributeValueDoubleQuoted =>
        simp only [hss, heof, Bool.false_eq_true, if_false] at he
        by_cases hc1 : c = dquote
        · rw [if_pos hc1] at he
          exact ih _ (by simp [notRaw]) (by simpa using hb1) _ _ he
        · rw [if_neg hc1] at he
          cases hA : append_attribute tk1.latest_token c false with
          | error k =>
            simp only [hA] at he
            exact absurd he (by simp)
          | ok lt =>
            simp only [hA] at he
            exact ih _ (by simpa [hss] using hnr1) (by simpa using hb1) _ _ he
      case AttributeValueSingleQuoted =>
        simp only [hss, heof, Bool.false_eq_true, if_false] at he
        by_cases hc1 : c = squote
        · rw [if_pos hc1] at he
          exact ih _ (by simp [notRaw]) (by simpa using hb1) _ _ he
        · rw [if_neg hc1] at he
          cases hA : append_attribute tk1.latest_token c false with
          | error k =>
            simp only [hA] at he
            exact absurd he (by simp)
          | ok lt =>
            simp only [hA] at he
            exact ih _ (by simpa [hss] using hnr1) (by simpa using hb1) _ _ he
      case AttributeValueUnquoted =>
        simp only [hss, heof, Bool.false_eq_true, if_false] at he
        by_cases hc1 : c = ' '
        · rw [if_pos hc1] at he
          exact ih _ (by simp [notRaw]) (by simpa using hb1) _ _ he
        · rw [if_neg hc1] at he
          by_cases hc3 : c = '>'
          · rw [if_pos hc3] at he
            cases hta : take_latest_token tk1.latest_token with
            | error k =>
              simp only [hta] at he
              exact absurd he (by simp)
            | ok t0 =>
              simp only [hta] at he
              injection he with h1 h2
              subst h2
              exact ⟨by rfl, hb1⟩
          · rw [if_neg hc3] at he
            cases hA : append_attribute tk1.latest_token c false with
            | error k =>
              simp only [hA] at he
              exact absurd he (by simp)
            | ok lt =>
              simp only [hA] at he
              exact ih _ (by simpa [hss] using hnr1) (by simpa using hb1) _ _ he
      case AfterAttributeValueQuoted =>
        simp only [hss, heof, Bool.false_eq_true, if_false] at he
        by_cases hc1 : c = ' '
        · rw [if_pos hc1] at he
          exact ih _ (by simp [notRaw]) (by simpa using hb1) _ _ he
        · rw [if_neg hc1] at he
          by_cases hc2 : c = '/'
          · rw [if_pos hc2] at he
            exact ih _ (by simp [notRaw]) (by simpa using hb1) _ _ he
          · rw [if_neg hc2] at he
            by_cases hc3 : c = '>'
            · rw [if_pos hc3] at he
              cases hta : take_latest_token tk1.latest_token with
              | error k =>
                simp only [hta] at he
                exact absurd he (by simp)
              | ok t0 =>
                simp only [hta] at he
                injection he with h1 h2
                subst h2
                exact ⟨by rfl, hb1⟩
            · rw [if_neg hc3] at he
              exact ih _ (by simp [notRaw]) (by simpa using hb1) _ _ he
      case SelfClosingStartTag =>
        simp only [hss, heof, Bool.false_eq_true, if_false] at he
        by_cases hc1 : c = '>'
        · rw [if_pos hc1] at he
          cases hS : set_self_closing_flag tk1.latest_token with
          | error k =>
            simp only [hS] at he
            exact absurd he (by simp)
          | ok lt =>
            simp only [hS] at he
            cases hta : take_latest_token lt with
            | error k =>
              simp only [hta] at he
              exact absurd he (by simp)
            | ok t0 =>
              simp only [hta] at he
              injection he with h1 h2
              subst h2
              exact ⟨by rfl, hb1⟩
        · rw [if_neg hc1] at he
          exact ih _ hnr1 hb1 _ _ he
      case ScriptData =>
        rw [hst] at hss
        rw [hss] at hnr
        simp [notRaw] at hnr
      case ScriptDataLessThanSign =>
        rw [hst] at hss
        rw [hss] at hnr
        simp [notRaw] at hnr
      case ScriptDataEndTagOpen =>
        rw [hst] at hss
        rw [hss] at hnr
        simp [notRaw] at hnr
      case ScriptDataEndTagName =>
        rw [hst] at hss
        rw [hss] at hnr
        simp [notRaw] at hnr
      case TemporaryBuffer =>
        rw [hst] at hss
        rw [hss] at hnr
        simp [notRaw] at hnr

end Tok

namespace Tok

theorem next_data_char {tk : HtmlTokenizer} {c : Char}
    (hs : tk.state = .Data) (hr : tk.reconsume = false)
    (hg : tk.input[tk.pos]? = some c) (hc : c ≠ '<') :
    next tk = .tok (.Char c) { tk with pos := tk.pos + 1 } := by
  have hlt : tk.pos < tk.input.length := (List.getElem?_eq_some.mp hg).1
  have hstep : nextAux (nextFuel tk) tk = .tok (.Char c) { tk with pos := tk.pos + 1 } := by
    obtain ⟨m, hm⟩ : ∃ m, nextFuel tk = m + 1 :=
      ⟨4 * (tk.input.length + tk.buf.length + 2) - 1, by unfold nextFuel; omega⟩
    rw [hm]
    have hread : readChar tk = some (c, { tk with pos := tk.pos + 1 }) := by
      simp only [readChar, hr, Bool.false_eq_true, if_false, consume_next_input, hg]
    simp only [nextAux, hread]
    simp only [hs]
    rw [if_neg hc]
    rw [if_neg (show ¬ (is_eof { tk with state := State.Data, pos := tk.pos + 1 } = true) by
      simp only [is_eof, decide_eq_true_eq, not_lt]
      omega)]
  unfold next
  rw [if_neg (by omega), hstep]

theorem runAux_data (rest : List Char) :
    ∀ (done : List Char) (lt : Option HtmlToken) (m : Nat),
    (∀ c ∈ rest, c ≠ '<') → rest.length + 1 ≤ m →
    runAux m { state := .Data, pos := done.length, reconsume := false,
               latest_token := lt, input := done ++ rest, buf := [] } =
      (rest.map HtmlToken.Char, .finished) := by
  induction rest with
  | nil =>
    intro done lt m _ hm
    obtain ⟨m', rfl⟩ : ∃ m', m = m' + 1 := ⟨m - 1, by omega⟩
    have hfin : next { state := .Data, pos := done.length, reconsume := false,
                       latest_token := lt, input := done ++ [], buf := [] } =
        .fin { state := .Data, pos := done.length, reconsume := false,
               latest_token := lt, input := done ++ [], buf := [] } := by
      unfold next
      rw [if_pos (by simp)]
    simp only [runAux, hfin, List.map_nil]
  | cons c rest ih =>
    intro done lt m hnolt hm
    obtain ⟨m', rfl⟩ : ∃ m', m = m' + 1 := ⟨m - 1, by omega⟩
    have hg : (done ++ c :: rest)[done.length]? = some c := by
      rw [List.getElem?_append_right (le_refl _)]
      simp
    have hnext := @next_data_char
      { state := .Data, pos := done.length, reconsume := false,
        latest_token := lt, input := done ++ c :: rest, buf := [] }
      c rfl rfl hg (hnolt c (by simp))
    have hnext2 : next { state := .Data, pos := done.length, reconsume := false,
                         latest_token := lt, input := done ++ c :: rest, buf := [] } =
        .tok (.Char c) { state := .Data, pos := (done ++ [c]).length, reconsume := false,
                         latest_token := lt, input := (done ++ [c]) ++ rest, buf := [] } := by
      rw [hnext]
      simp
    simp only [runAux, hnext2]
    rw [ih (done ++ [c]) lt m' (fun x hx => hnolt x (by simp [hx])) (by simpa using hm)]
    simp

end Tok

namespace Tok

theorem next_tok_inner {tk : HtmlTokenizer} {t : HtmlToken} {tk' : HtmlTokenizer}
    (h : next tk = .tok t tk') : nextAux (nextFuel tk) tk = .tok t tk' := by
  unfold next at h
  by_cases hp : tk.input.length ≤ tk.pos
  · rw [if_pos hp] at h
    exact absurd h (by simp)
  · rw [if_neg hp] at h
    cases hnx : nextAux (nextFuel tk) tk with
    | tok t0 tk0 =>
      simp only [hnx] at h
      injection h with h1 h2
      subst h1
      subst h2
      rfl
    | panicIndex =>
      simp only [hnx] at h
      exact absurd h (by simp)
    | panicContract k =>
      simp only [hnx] at h
      exact absurd h (by simp)
    | noFuel =>
      simp only [hnx] at h
      exact absurd h (by simp)

theorem nextAux_tagOpen_abandon (m : Nat) (tk : HtmlTokenizer) (c : Char)
    (hs : tk.state = .TagOpen) (hr : tk.reconsume = false)
    (hg : tk.input[tk.pos]? = some c)
    (hsl : c ≠ '/') (hal : is_ascii_alphabetic c = false) (hlt : c ≠ '<') :
    nextAux (m + 2) tk =
      .tok (.Char c) { tk with pos := tk.pos + 1, reconsume := false, state := .Data } := by
  have hp : tk.pos < tk.input.length := (List.getElem?_eq_some.mp hg).1
  have hread1 : readChar tk = some (c, { tk with pos := tk.pos + 1 }) := by
    simp only [readChar, hr, Bool.false_eq_true, if_false, consume_next_input, hg]
  show nextAux (m + 1 + 1) tk = _
  simp only [nextAux, hread1, hs]
  rw [if_neg hsl]
  rw [if_neg (show ¬ (is_ascii_alphabetic c = true) by simp [hal])]
  rw [if_neg (show ¬ (is_eof { tk with state := State.TagOpen, pos := tk.pos + 1 } = true) by
    simp only [is_eof, decide_eq_true_eq, not_lt]
    omega)]
  have hread2 : readChar { tk with pos := tk.pos + 1, reconsume := true, state := State.Data } =
      some (c, { tk with pos := tk.pos + 1, reconsume := false, state := State.Data }) := by
    simp [readChar, reconsume_input, hg]
  simp only [nextAux, hread2]
  rw [if_neg hlt]
  have heof3 : ¬ (is_eof { tk with state := State.Data, pos := tk.pos + 1, reconsume := false } = true) := by
    simp only [is_eof, decide_eq_true_eq, not_lt]
    omega
  rw [if_neg heof3]

end Tok

namespace Tok

/-- The input of the attribute test: `<p class="A" id='B' foo=bar></p>`. -/
def c1input : List Char :=
  "<p class=".data ++ [dquote, 'A', dquote] ++ " id=".data ++ [squote, 'B', squote] ++
    " foo=bar></p>".data

/-- C1: tokenizing `<p class="A" id='B' foo=bar></p>` yields exactly the
StartTag `p` (not self-closing) with the ordered attributes
class="A", id='B', foo=bar — covering double-quoted, single-quoted and
unquoted values — then EndTag `p`, and then the sequence is exhausted. -/
theorem tokC1_attributes :
    tokenize c1input =
      ([HtmlToken.StartTag "p".data false
          [⟨"class".data, "A".data⟩, ⟨"id".data, "B".data⟩, ⟨"foo".data, "bar".data⟩],
        HtmlToken.EndTag "p".data], RunEnd.finished) := by
  decide

/-- C2: for every input containing no `<`, the token stream is exactly one
Char token per input scalar value, in input order, ending in the plain
end-of-sequence signal (so no StartTag, EndTag or Eof token occurs). -/
theorem tokC2_chars_only (l : List Char) (h : ∀ c ∈ l, c ≠ '<') :
    tokenize l = (l.map HtmlToken.Char, RunEnd.finished) := by
  unfold tokenize
  have h0 : HtmlTokenizer.new l = { state := .Data, pos := ([] : List Char).length, reconsume := false, latest_token := none, input := [] ++ l, buf := [] } := by
    simp [HtmlTokenizer.new]
  rw [h0]
  exact runAux_data l [] none (3 * l.length + 5) h (by omega)

theorem tokC2_chars_only_witness :
    (∀ c ∈ ['a', 'B'], c ≠ '<') ∧
    tokenize ['a', 'B'] = ([HtmlToken.Char 'a', HtmlToken.Char 'B'], RunEnd.finished) :=
  ⟨by decide, tokC2_chars_only ['a', 'B'] (by decide)⟩

/-- C3: on empty input the very first `next` call signals end of sequence,
and whenever `next` signals end of sequence it leaves the tokenizer
unchanged, so every later call signals end of sequence again — it never
panics and never produces a token. -/
theorem tokC3_exhaustion_idempotent :
    next (HtmlTokenizer.new []) = .fin (HtmlTokenizer.new []) ∧
    ∀ (tk tk' : HtmlTokenizer), next tk = .fin tk' → tk' = tk ∧ next tk' = .fin tk' := by
  constructor
  · rfl
  · intro tk tk' h
    unfold next at h
    by_cases hp : tk.input.length ≤ tk.pos
    · rw [if_pos hp] at h
      injection h with h1
      subst h1
      constructor
      · rfl
      · unfold next
        rw [if_pos hp]
    · rw [if_neg hp] at h
      cases hnx : nextAux (nextFuel tk) tk <;> simp only [hnx] at h <;> exact absurd h (by simp)

theorem tokC3_exhaustion_idempotent_witness :
    next (HtmlTokenizer.new []) = .fin (HtmlTokenizer.new []) ∧
    (HtmlTokenizer.new [] = HtmlTokenizer.new [] ∧
      next (HtmlTokenizer.new []) = .fin (HtmlTokenizer.new [])) :=
  ⟨tokC3_exhaustion_idempotent.1,
   tokC3_exhaustion_idempotent.2 (HtmlTokenizer.new []) (HtmlTokenizer.new []) (by rfl)⟩

/-- C4: a StartTag/EndTag token is only ever yielded immediately after the
character `>` has been read at the yielding position, on every input
reachable from a fresh tokenizer (the `latestOk` invariant holds at
construction and is preserved by every yielded token).  Consequently an
input that ends while a tag is still under construction — i.e. before its
`>` is consumed — never has that tag's token in the output stream: the
in-construction token is discarded, not silently returned. -/
theorem tokC4_no_unclosed_tag_emitted (html : List Char) (tk : HtmlTokenizer)
    (t : HtmlToken) (tk' : HtmlTokenizer) :
    latestOk (HtmlTokenizer.new html).latest_token = true ∧
    (latestOk tk.latest_token = true → next tk = .tok t tk' →
      latestOk tk'.latest_token = true ∧
      (isTag t = true → 1 ≤ tk'.pos ∧ tk'.input[tk'.pos - 1]? = some '>')) := by
  refine ⟨rfl, fun hok he => ?_⟩
  obtain ⟨h1, _, _, h4, _⟩ := nextAux_tok (nextFuel tk) tk hok t tk' (next_tok_inner he)
  exact ⟨h1, h4⟩

theorem tokC4_no_unclosed_tag_emitted_witness :
    latestOk (none : Option HtmlToken) = true ∧
    (isTag (HtmlToken.StartTag "a".data false []) = true →
      1 ≤ (3 : Nat) ∧ ("<a>".data)[(3 : Nat) - 1]? = some '>') :=
  ⟨(tokC4_no_unclosed_tag_emitted "<a>".data (HtmlTokenizer.new "<a>".data)
      (HtmlToken.StartTag "a".data false [])
      { state := State.Data, pos := 3, reconsume := false, latest_token := none, input := "<a>".data, buf := [] }).1,
   ((tokC4_no_unclosed_tag_emitted "<a>".data (HtmlTokenizer.new "<a>".data)
      (HtmlToken.StartTag "a".data false [])
      { state := State.Data, pos := 3, reconsume := false, latest_token := none, input := "<a>".data, buf := [] }).2
      (by decide) (by decide)).2⟩

/-- C5: tokenizing `</p q>` reaches `start_new_attribute` while the
in-construction token is an EndTag, so the helper's wrong-variant `panic!`
branch fires: the contract-violation branches are reachable from the public
interface, contrary to the claim. -/
theorem tokC5_contract_panic_reachable :
    tokenize "</p q>".data = ([], RunEnd.panickedContract ContractKind.wrongVariant) := by
  decide

/-- C6: a call of `next` never yields the explicit Eof token, on every input
reachable from a fresh tokenizer: the `latestOk` invariant holds at
construction, is preserved by every yielded token, and under it every
Eof-returning branch is dead because a successful character read leaves the
cursor at most at the input length, so `is_eof` is false wherever tested. -/
theorem tokC6_no_eof_token (html : List Char) (tk : HtmlTokenizer)
    (t : HtmlToken) (tk' : HtmlTokenizer) :
    latestOk (HtmlTokenizer.new html).latest_token = true ∧
    (latestOk tk.latest_token = true → next tk = .tok t tk' →
      latestOk tk'.latest_token = true ∧ t ≠ .Eof) := by
  refine ⟨rfl, fun hok he => ?_⟩
  obtain ⟨h1, h2, _, _, _⟩ := nextAux_tok (nextFuel tk) tk hok t tk' (next_tok_inner he)
  exact ⟨h1, h2⟩

theorem tokC6_no_eof_token_witness :
    latestOk (none : Option HtmlToken) = true ∧
    HtmlToken.StartTag "b".data false [] ≠ HtmlToken.Eof :=
  (tokC6_no_eof_token "<b>".data (HtmlTokenizer.new "<b>".data)
    (HtmlToken.StartTag "b".data false [])
    { state := State.Data, pos := 3, reconsume := false, latest_token := none, input := "<b>".data, buf := [] }).2
    (by decide) (by decide)

theorem nextAux_tagName_start_step (n : Nat) (tk : HtmlTokenizer) (c : Char)
    (tag : List Char) (sc : Bool) (attrs : List Attribute)
    (hs : tk.state = .TagName) (hr : tk.reconsume = false)
    (hg : tk.input[tk.pos]? = some c)
    (h1 : c ≠ ' ') (h2 : c ≠ '/') (h3 : c ≠ '>')
    (hlt : tk.latest_token = some (.StartTag tag sc attrs)) :
    nextAux (n + 1) tk = nextAux n
      { tk with pos := tk.pos + 1,
                latest_token := some (.StartTag (tag ++ [to_ascii_lowercase c]) sc attrs) } := by
  have hp : tk.pos < tk.input.length := (List.getElem?_eq_some.mp hg).1
  have hread : readChar tk = some (c, { tk with pos := tk.pos + 1 }) := by
    simp only [readChar, hr, Bool.false_eq_true, if_false, consume_next_input, hg]
  simp only [nextAux, hread, hs]
  rw [if_neg h1, if_neg h2, if_neg h3]
  by_cases hU : is_ascii_uppercase c = true
  · rw [if_pos hU]
    simp only [hlt, append_tag_name]
  · rw [if_neg hU]
    have heof2 : ¬ (is_eof { tk with state := State.TagName, pos := tk.pos + 1 } = true) := by
      simp only [is_eof, decide_eq_true_eq, not_lt]
      omega
    rw [if_neg heof2]
    have hlc : to_ascii_lowercase c = c := by
      simp only [to_ascii_lowercase]
      rw [if_neg hU]
    rw [hlc]
    simp only [hlt, append_tag_name]

theorem nextAux_tagName_end_step (n : Nat) (tk : HtmlTokenizer) (c : Char)
    (tag : List Char)
    (hs : tk.state = .TagName) (hr : tk.reconsume = false)
    (hg : tk.input[tk.pos]? = some c)
    (h1 : c ≠ ' ') (h2 : c ≠ '/') (h3 : c ≠ '>')
    (hlt : tk.latest_token = some (.EndTag tag)) :
    nextAux (n + 1) tk = nextAux n
      { tk with pos := tk.pos + 1,
                latest_token := some (.EndTag (tag ++ [to_ascii_lowercase c])) } := by
  have hp : tk.pos < tk.input.length := (List.getElem?_eq_some.mp hg).1
  have hread : readChar tk = some (c, { tk with pos := tk.pos + 1 }) := by
    simp only [readChar, hr, Bool.false_eq_true, if_false, consume_next_input, hg]
  simp only [nextAux, hread, hs]
  rw [if_neg h1, if_neg h2, if_neg h3]
  by_cases hU : is_ascii_uppercase c = true
  · rw [if_pos hU]
    simp only [hlt, append_tag_name]
  · rw [if_neg hU]
    have heof2 : ¬ (is_eof { tk with state := State.TagName, pos := tk.pos + 1 } = true) := by
      simp only [is_eof, decide_eq_true_eq, not_lt]
      omega
    rw [if_neg heof2]
    have hlc : to_ascii_lowercase c = c := by
      simp only [to_ascii_lowercase]
      rw [if_neg hU]
    rw [hlc]
    simp only [hlt, append_tag_name]

theorem nextAux_attrName_step (n : Nat) (tk : HtmlTokenizer) (c : Char)
    (tag : List Char) (sc : Bool) (attrs : List Attribute)
    (hs : tk.state = .AttributeName) (hr : tk.reconsume = false)
    (hg : tk.input[tk.pos]? = some c)
    (h1 : c ≠ ' ') (h2 : c ≠ '/') (h3 : c ≠ '>') (h4 : c ≠ '=')
    (hlt : tk.latest_token = some (.StartTag tag sc attrs)) (hne : attrs ≠ []) :
    nextAux (n + 1) tk = nextAux n
      { tk with pos := tk.pos + 1,
                latest_token := some (.StartTag tag sc
                  (pushLast attrs (fun a => a.add_char (to_ascii_lowercase c) true))) } := by
  have hp : tk.pos < tk.input.length := (List.getElem?_eq_some.mp hg).1
  have hlen : ¬ (attrs.length = 0) := fun h => hne (List.length_eq_zero.mp h)
  have hread : readChar tk = some (c, { tk with pos := tk.pos + 1 }) := by
    simp only [readChar, hr, Bool.false_eq_true, if_false, consume_next_input, hg]
  simp only [nextAux, hread, hs]
  have heof2 : ¬ (is_eof { tk with state := State.AttributeName, pos := tk.pos + 1 } = true) := by
    simp only [is_eof, decide_eq_true_eq, not_lt]
    omega
  have hd : ¬ (c = ' ' ∨ c = '/' ∨ c = '>' ∨
      is_eof { tk with state := State.AttributeName, pos := tk.pos + 1 } = true) := by
    push_neg
    exact ⟨h1, h2, h3, heof2⟩
  rw [if_neg hd, if_neg h4]
  by_cases hU : is_ascii_uppercase c = true
  · rw [if_pos hU]
    simp only [hlt, append_attribute, if_neg hlen]
  · rw [if_neg hU]
    have hlc : to_ascii_lowercase c = c := by
      simp only [to_ascii_lowercase]
      rw [if_neg hU]
    rw [hlc]
    simp only [hlt, append_attribute, if_neg hlen]

theorem nextAux_valueDQ_step (n : Nat) (tk : HtmlTokenizer) (c : Char)
    (tag : List Char) (sc : Bool) (attrs : List Attribute)
    (hs : tk.state = .AttributeValueDoubleQuoted) (hr : tk.reconsume = false)
    (hg : tk.input[tk.pos]? = some c) (hq : c ≠ dquote)
    (hlt : tk.latest_token = some (.StartTag tag sc attrs)) (hne : attrs ≠ []) :
    nextAux (n + 1) tk = nextAux n
      { tk with pos := tk.pos + 1,
                latest_token := some (.StartTag tag sc
                  (pushLast attrs (fun a => a.add_char c false))) } := by
  have hp : tk.pos < tk.input.length := (List.getElem?_eq_some.mp hg).1
  have hlen : ¬ (attrs.length = 0) := fun h => hne (List.length_eq_zero.mp h)
  have hread : readChar tk = some (c, { tk with pos := tk.pos + 1 }) := by
    simp only [readChar, hr, Bool.false_eq_true, if_false, consume_next_input, hg]
  simp only [nextAux, hread, hs]
  rw [if_neg hq]
  have heof2 : ¬ (is_eof { tk with state := State.AttributeValueDoubleQuoted, pos := tk.pos + 1 } = true) := by
    simp only [is_eof, decide_eq_true_eq, not_lt]
    omega
  rw [if_neg heof2]
  simp only [hlt, append_attribute, if_neg hlen]

theorem nextAux_valueSQ_step (n : Nat) (tk : HtmlTokenizer) (c : Char)
    (tag : List Char) (sc : Bool) (attrs : List Attribute)
    (hs : tk.state = .AttributeValueSingleQuoted) (hr : tk.reconsume = false)
    (hg : tk.input[tk.pos]? = some c) (hq : c ≠ squote)
    (hlt : tk.latest_token = some (.StartTag tag sc attrs)) (hne : attrs ≠ []) :
    nextAux (n + 1) tk = nextAux n
      { tk with pos := tk.pos + 1,
                latest_token := some (.StartTag tag sc
                  (pushLast attrs (fun a => a.add_char c false))) } := by
  have hp : tk.pos < tk.input.length := (List.getElem?_eq_some.mp hg).1
  have hlen : ¬ (attrs.length = 0) := fun h => hne (List.length_eq_zero.mp h)
  have hread : readChar tk = some (c, { tk with pos := tk.pos + 1 }) := by
    simp only [readChar, hr, Bool.false_eq_true, if_false, consume_next_input, hg]
  simp only [nextAux, hread, hs]
  rw [if_neg hq]
  have heof2 : ¬ (is_eof { tk with state := State.AttributeValueSingleQuoted, pos := tk.pos + 1 } = true) := by
    simp only [is_eof, decide_eq_true_eq, not_lt]
    omega
  rw [if_neg heof2]
  simp only [hlt, append_attribute, if_neg hlen]

theorem nextAux_valueUnquoted_step (n : Nat) (tk : HtmlTokenizer) (c : Char)
    (tag : List Char) (sc : Bool) (attrs : List Attribute)
    (hs : tk.state = .AttributeValueUnquoted) (hr : tk.reconsume = false)
    (hg : tk.input[tk.pos]? = some c) (h1 : c ≠ ' ') (h3 : c ≠ '>')
    (hlt : tk.latest_token = some (.StartTag tag sc attrs)) (hne : attrs ≠ []) :
    nextAux (n + 1) tk = nextAux n
      { tk with pos := tk.pos + 1,
                latest_token := some (.StartTag tag sc
                  (pushLast attrs (fun a => a.add_char c false))) } := by
  have hp : tk.pos < tk.input.length := (List.getElem?_eq_some.mp hg).1
  have hlen : ¬ (attrs.length = 0) := fun h => hne (List.length_eq_zero.mp h)
  have hread : readChar tk = some (c, { tk with pos := tk.pos + 1 }) := by
    simp only [readChar, hr, Bool.false_eq_true, if_false, consume_next_input, hg]
  simp only [nextAux, hread, hs]
  rw [if_neg h1, if_neg h3]
  have heof2 : ¬ (is_eof { tk with state := State.AttributeValueUnquoted, pos := tk.pos + 1 } = true) := by
    simp only [is_eof, decide_eq_true_eq, not_lt]
    omega
  rw [if_neg heof2]
  simp only [hlt, append_attribute, if_neg hlen]

/-- TagName iteration about to lower-case the uppercase letter A. -/
def c7wTagName : HtmlTokenizer :=
  { state := .TagName, pos := 0, reconsume := false,
    latest_token := some (.StartTag [] false []), input := ['A'], buf := [] }

/-- Unquoted-value iteration about to store the uppercase letter X verbatim. -/
def c7wValue : HtmlTokenizer :=
  { state := .AttributeValueUnquoted, pos := 0, reconsume := false,
    latest_token := some (.StartTag ['b'] false [⟨['i'], []⟩]), input := ['X'], buf := [] }

/-- C7: for every input and every tokenizer configuration, one loop iteration
in a name-building state (TagName over a StartTag or EndTag, AttributeName)
stores exactly `to_ascii_lowercase c` of the character `c` it reads — an
uppercase letter is stored lower-cased, any other character verbatim — while
one iteration in any of the three attribute-value states stores exactly the
character read, unchanged; moreover every yielded tag token's names contain
no ASCII uppercase, a Char yielded from the Data arm is exactly the scalar
just read, and `<DiV Id=Abc>X` concretely shows values and Chars keeping
their case while names are folded. -/
theorem tokC7_case_folding :
    (∀ (n : Nat) (tk : HtmlTokenizer) (c : Char) (tag : List Char) (sc : Bool)
        (attrs : List Attribute),
      tk.state = .TagName → tk.reconsume = false → tk.input[tk.pos]? = some c →
      c ≠ ' ' → c ≠ '/' → c ≠ '>' →
      tk.latest_token = some (.StartTag tag sc attrs) →
      nextAux (n + 1) tk = nextAux n
        { tk with pos := tk.pos + 1,
                  latest_token := some (.StartTag (tag ++ [to_ascii_lowercase c]) sc attrs) }) ∧
    (∀ (n : Nat) (tk : HtmlTokenizer) (c : Char) (tag : List Char),
      tk.state = .TagName → tk.reconsume = false → tk.input[tk.pos]? = some c →
      c ≠ ' ' → c ≠ '/' → c ≠ '>' →
      tk.latest_token = some (.EndTag tag) →
      nextAux (n + 1) tk = nextAux n
        { tk with pos := tk.pos + 1,
                  latest_token := some (.EndTag (tag ++ [to_ascii_lowercase c])) }) ∧
    (∀ (n : Nat) (tk : HtmlTokenizer) (c : Char) (tag : List Char) (sc : Bool)
        (attrs : List Attribute),
      tk.state = .AttributeName → tk.reconsume = false → tk.input[tk.pos]? = some c →
      c ≠ ' ' → c ≠ '/' → c ≠ '>' → c ≠ '=' →
      tk.latest_token = some (.StartTag tag sc attrs) → attrs ≠ [] →
      nextAux (n + 1) tk = nextAux n
        { tk with pos := tk.pos + 1,
                  latest_token := some (.StartTag tag sc
                    (pushLast attrs (fun a => a.add_char (to_ascii_lowercase c) true))) }) ∧
    (∀ (n : Nat) (tk : HtmlTokenizer) (c : Char) (tag : List Char) (sc : Bool)
        (attrs : List Attribute),
      tk.state = .AttributeValueDoubleQuoted → tk.reconsume = false →
      tk.input[tk.pos]? = some c → c ≠ dquote →
      tk.latest_token = some (.StartTag tag sc attrs) → attrs ≠ [] →
      nextAux (n + 1) tk = nextAux n
        { tk with pos := tk.pos + 1,
                  latest_token := some (.StartTag tag sc
                    (pushLast attrs (fun a => a.add_char c false))) }) ∧
    (∀ (n : Nat) (tk : HtmlTokenizer) (c : Char) (tag : List Char) (sc : Bool)
        (attrs : List Attribute),
      tk.state = .AttributeValueSingleQuoted → tk.reconsume = false →
      tk.input[tk.pos]? = some c → c ≠ squote →
      tk.latest_token = some (.StartTag tag sc attrs) → attrs ≠ [] →
      nextAux (n + 1) tk = nextAux n
        { tk with pos := tk.pos + 1,
                  latest_token := some (.StartTag tag sc
                    (pushLast attrs (fun a => a.add_char c false))) }) ∧
    (∀ (n : Nat) (tk : HtmlTokenizer) (c : Char) (tag : List Char) (sc : Bool)
        (attrs : List Attribute),
      tk.state = .AttributeValueUnquoted → tk.reconsume = false →
      tk.input[tk.pos]? = some c → c ≠ ' ' → c ≠ '>' →
      tk.latest_token = some (.StartTag tag sc attrs) → attrs ≠ [] →
      nextAux (n + 1) tk = nextAux n
        { tk with pos := tk.pos + 1,
                  latest_token := some (.StartTag tag sc
                    (pushLast attrs (fun a => a.add_char c false))) }) ∧
    (∀ html : List Char, latestOk (HtmlTokenizer.new html).latest_token = true) ∧
    (∀ (tk : HtmlTokenizer) (t : HtmlToken) (tk' : HtmlTokenizer),
      latestOk tk.latest_token = true → next tk = .tok t tk' →
      latestOk tk'.latest_token = true ∧ tokNamesOk t = true ∧
      (∀ c, t = .Char c → tk'.state = .Data →
        1 ≤ tk'.pos ∧ tk'.input[tk'.pos - 1]? = some c)) ∧
    tokenize "<DiV Id=Abc>X".data =
      ([HtmlToken.StartTag "div".data false [⟨"id".data, "Abc".data⟩],
        HtmlToken.Char 'X'], RunEnd.finished) := by
  refine ⟨nextAux_tagName_start_step, nextAux_tagName_end_step, nextAux_attrName_step,
    nextAux_valueDQ_step, nextAux_valueSQ_step, nextAux_valueUnquoted_step,
    fun _ => rfl, fun tk t tk' hok he => ?_, by decide⟩
  obtain ⟨h1, _, h3, _, h5⟩ := nextAux_tok (nextFuel tk) tk hok t tk' (next_tok_inner he)
  exact ⟨h1, h3, h5⟩

theorem tokC7_case_folding_witness :
    to_ascii_lowercase 'A' = 'a' ∧
    nextAux (5 + 1) c7wTagName = nextAux 5
      { c7wTagName with pos := c7wTagName.pos + 1,
                        latest_token := some (.StartTag ([] ++ [to_ascii_lowercase 'A']) false []) } ∧
    nextAux (5 + 1) c7wValue = nextAux 5
      { c7wValue with pos := c7wValue.pos + 1,
                      latest_token := some (.StartTag ['b'] false
                        (pushLast [⟨['i'], []⟩] (fun a => a.add_char 'X' false))) } :=
  ⟨by decide,
   tokC7_case_folding.1 5 c7wTagName 'A' [] false []
     (by rfl) (by rfl) (by decide) (by decide) (by decide) (by decide) (by rfl),
   tokC7_case_folding.2.2.2.2.2.1 5 c7wValue 'X' ['b'] false [⟨['i'], []⟩]
     (by rfl) (by rfl) (by decide) (by decide) (by decide) (by rfl) (by decide)⟩

/-- C8 counterexample: on input `<1` (a `<` followed by `1`, which is
neither `/` nor alphabetic) the output is just `Char '1'` ending in the
end-of-sequence signal: the `<` itself never appears in the output Char
stream, refuting the claim that both characters are tokenized as data. -/
theorem tokC8_lt_not_emitted_counterexample :
    tokenize "<1".data = ([HtmlToken.Char '1'], RunEnd.finished) ∧
    HtmlToken.Char '<' ∉ (tokenize "<1".data).1 := by
  decide

/-- C8 (amended): when a `<` in the Data state is followed by a character
that is neither `/` nor alphabetic nor another `<`, the tag attempt is
abandoned and only the FOLLOWING character is reconsumed as plain data and
yielded as a Char token; the bare `<` itself is dropped and never emitted
(and a following `<` instead restarts a tag open). -/
theorem tokC8_following_char_reconsumed (tk : HtmlTokenizer) (c : Char)
    (hs : tk.state = .Data) (hr : tk.reconsume = false)
    (h1 : tk.input[tk.pos]? = some '<') (h2 : tk.input[tk.pos + 1]? = some c)
    (hsl : c ≠ '/') (hal : is_ascii_alphabetic c = false) (hlt : c ≠ '<') :
    next tk = .tok (.Char c) { tk with pos := tk.pos + 2, reconsume := false, state := .Data } := by
  have hp1 : tk.pos < tk.input.length := (List.getElem?_eq_some.mp h1).1
  obtain ⟨m, hm⟩ : ∃ m, nextFuel tk = m + 3 :=
    ⟨4 * (tk.input.length + tk.buf.length + 2) - 3, by unfold nextFuel; omega⟩
  have hread1 : readChar tk = some ('<', { tk with pos := tk.pos + 1 }) := by
    simp only [readChar, hr, Bool.false_eq_true, if_false, consume_next_input, h1]
  have hstep : nextAux (nextFuel tk) tk =
      .tok (.Char c) { tk with pos := tk.pos + 2, reconsume := false, state := .Data } := by
    obtain ⟨k, hk⟩ : ∃ k, k = m + 2 := ⟨m + 2, rfl⟩
    have habandon := nextAux_tagOpen_abandon m
      { tk with pos := tk.pos + 1, state := State.TagOpen } c rfl hr (by simpa using h2)
      hsl hal hlt
    have e1 : nextAux (k + 1) tk =
        nextAux k { tk with pos := tk.pos + 1, state := State.TagOpen } := by
      simp only [nextAux, hread1, hs, if_true]
    rw [hm, show m + 3 = k + 1 by omega, e1, hk, habandon]
  unfold next
  rw [if_neg (by omega), hstep]

theorem tokC8_following_char_reconsumed_witness :
    next (HtmlTokenizer.new "<1".data) =
      .tok (.Char '1') { HtmlTokenizer.new "<1".data with pos := (HtmlTokenizer.new "<1".data).pos + 2, reconsume := false, state := .Data } :=
  tokC8_following_char_reconsumed (HtmlTokenizer.new "<1".data) '1'
    (by rfl) (by rfl) (by decide) (by decide) (by decide) (by decide) (by decide)

/-- C9: a fresh tokenizer starts outside the raw-text states with an empty
scratch buffer, and every `next` call from such a configuration yields a
tokenizer still outside the raw-text states (ScriptData,
ScriptDataLessThanSign, ScriptDataEndTagOpen, ScriptDataEndTagName,
TemporaryBuffer) with the scratch buffer still empty: nothing in the core
ever transitions from Data into raw-text mode. -/
theorem tokC9_raw_unreachable (html : List Char) (tk : HtmlTokenizer)
    (t : HtmlToken) (tk' : HtmlTokenizer) :
    (notRaw (HtmlTokenizer.new html).state = true ∧ (HtmlTokenizer.new html).buf = []) ∧
    (notRaw tk.state = true → tk.buf = [] → next tk = .tok t tk' →
      notRaw tk'.state = true ∧ tk'.buf = []) := by
  refine ⟨⟨rfl, rfl⟩, fun h1 h2 he => ?_⟩
  exact nextAux_notRaw (nextFuel tk) tk h1 h2 t tk' (next_tok_inner he)

theorem tokC9_raw_unreachable_witness :
    notRaw State.Data = true ∧ ([] : List Char) = [] :=
  (tokC9_raw_unreachable ['c'] (HtmlTokenizer.new ['c']) (HtmlToken.Char 'c')
    { state := State.Data, pos := 1, reconsume := false, latest_token := none, input := ['c'], buf := [] }).2
    (by rfl) (by rfl) (by decide)

/-- C10: on the single-character input `<`, one `next` call consumes the `<`
(cursor becomes 1, the input length), loops, and the character-read step
indexes the input out of bounds — the read is not total for all reachable
cursor values; the call ends in the index panic, and indeed the read at
cursor 1 on a one-element input yields no character. -/
theorem tokC10_oob_read :
    next (HtmlTokenizer.new "<".data) = NextRes.panicIndex ∧
    readChar { state := State.TagOpen, pos := 1, reconsume := false, latest_token := none, input := "<".data, buf := [] } = none := by
  decide

end Tok
